import Mathlib

/-!
Verification of the FAISS-based document retrieval engine
(`tools/faiss_engine_tool.py`, `db/db_manager.py`).

Shallow embedding conventions:
* Python `str` is modelled by `String`; splitting on `"\n"` and
  `str.strip()` truthiness are implemented over the character list
  (ASCII whitespace subset).
* The SentenceTransformer model, the cross encoder and the tokenizer are
  external collaborators; they appear as function parameters
  (`tokenize`, `convert`, `encode`).  `model.encode` of a batch returns
  one vector per input text, so the batched call is modelled as `List.map`.
* `numpy` float arrays are modelled over `ℚ`.  `np.linalg.norm` computes a
  float square root, which has no computable counterpart over `ℚ`; the norm
  routine is therefore a function parameter `norm`, and theorems that need
  its defining property assume `(norm v) ^ 2 = sumSq v`.
* A FAISS `IndexFlatIP` is modelled by the list of its stored rows
  (`List (List ℚ)`); `index.add` is list append.
* A raised Python exception is modelled by `Option.none`.
-/

/-! ### Python string primitives -/

/-- Helper for `pySplitLines`: splits a character list at every newline. -/
def splitNlAux (cs : List Char) (cur : List Char) : List (List Char) :=
  match cs with
  | [] => [cur.reverse]
  | c :: rest =>
    if c = '\n' then cur.reverse :: splitNlAux rest []
    else splitNlAux rest (c :: cur)

/-- Python `text.split("\n")` (line 99 of `faiss_engine_tool.py`). -/
def pySplitLines (s : String) : List String :=
  (splitNlAux s.data []).map String.mk

/-- ASCII whitespace, the characters removed by Python `str.strip()`. -/
def isPySpace (c : Char) : Bool :=
  c = ' ' || c = '\t' || c = '\n' || c = '\r' || c = '\x0b' || c = '\x0c'

/-- Truthiness of Python `text.strip()` is false exactly on blank strings. -/
def isBlank (s : String) : Bool := s.data.all isPySpace

/-! ### Chunker (`_sliding_window_tokenization`) -/

/-- Python `tokens[i : i + w]`. -/
def windowSlice (tokens : List String) (w i : ℕ) : List String :=
  (tokens.drop i).take w

/-- `FaissSearchEngine._sliding_window_tokenization`.
`tokenize` models `self.tokenizer.tokenize`, `convert` models
`self.tokenizer.convert_tokens_to_string`.  The start offsets
`range(0, n - w + 1, stride)` are rendered, for `stride ≥ 1`, as the
multiples `i * stride` with `i * stride ≤ n - w` (for `stride = 0` the
Python `range` raises `ValueError`; the model is stated for positive
stride only). -/
def slidingWindowTokenization (tokenize : String → List String)
    (convert : List String → String) (text : String)
    (window_size stride : ℕ) : List String :=
  let tokens := tokenize text
  if tokens.length < window_size then [convert tokens]
  else
    (List.range ((tokens.length - window_size) / stride + 1)).map
      (fun i => convert (windowSlice tokens window_size (i * stride)))

/-! ### Engine state and `_process_texts` -/

/-- The mutable state of `FaissSearchEngine`: `self.index` (None until the
first index-creating update) and `self.chunks_list`. -/
structure Engine where
  index : Option (List (List ℚ))
  chunks_list : List String
deriving DecidableEq

/-- Chunk part of `_process_texts`: every line with truthy `text.strip()`
is chunked with `window_size = 50`, `stride = 40` and the chunks are
concatenated in order. -/
def processChunks (tokenize : String → List String)
    (convert : List String → String) (texts : List String) : List String :=
  texts.foldr
    (fun t acc =>
      if isBlank t then acc
      else slidingWindowTokenization tokenize convert t 50 40 ++ acc) []

/-- `FaissSearchEngine._process_texts`: returns the chunk list and the
batched embeddings (`model.encode` yields one vector per chunk). -/
def processTexts (tokenize : String → List String)
    (convert : List String → String) (encode : String → List ℚ)
    (texts : List String) : List String × List (List ℚ) :=
  let chunks := processChunks tokenize convert texts
  (chunks, chunks.map encode)

/-- Sum of squared entries; `sumSq v = 1` states that `v` is L2-unit. -/
def sumSq (v : List ℚ) : ℚ := (v.map (fun x => x ^ 2)).sum

/-- `FaissSearchEngine._initialize_index`.  On the empty batch
(`np.array([])`, shape `(0,)`) the call
`np.linalg.norm(text_vectors, axis=1, keepdims=True)` raises
`numpy.AxisError`, modelled by `none`.  Otherwise every row is divided
componentwise by its norm and the rows become the new index. -/
def initializeIndex (norm : List ℚ → ℚ) (vs : List (List ℚ)) :
    Option (List (List ℚ)) :=
  match vs with
  | [] => none
  | _ :: _ => some (vs.map (fun v => v.map (fun x => x / norm v)))

/-! ### `update_index` -/

/-- One iteration of the `for filename, pdf_text in pdf_texts.items()` loop
in `FaissSearchEngine.update_index`. -/
def updateStep (tokenize : String → List String)
    (convert : List String → String) (encode : String → List ℚ)
    (norm : List ℚ → ℚ) (s : Engine) (doc : String × String) :
    Option Engine :=
  let pc := processTexts tokenize convert encode (pySplitLines doc.2)
  let newChunks := pc.1
  let newVectors := pc.2
  match s.index with
  | none =>
    match initializeIndex norm newVectors with
    | none => none
    | some idx => some ⟨some idx, newChunks⟩
  | some idx =>
    let uniqueChunks := newChunks.filter (fun c => c ∉ s.chunks_list)
    let uniqueVectors :=
      ((newChunks.zip newVectors).filter
        (fun p => p.1 ∉ s.chunks_list)).map Prod.snd
    some ⟨some (idx ++ uniqueVectors), s.chunks_list ++ uniqueChunks⟩

/-- `FaissSearchEngine.update_index`.  An empty mapping returns with the
state unchanged; otherwise the documents are processed in order.  The
final `_save_index_to_db` touches only the persistence layer and is not
part of the engine state. -/
def updateIndex (tokenize : String → List String)
    (convert : List String → String) (encode : String → List ℚ)
    (norm : List ℚ → ℚ) (s : Engine) (pdf_texts : List (String × String)) :
    Option Engine :=
  match pdf_texts with
  | [] => some s
  | d :: rest =>
    (d :: rest).foldlM (updateStep tokenize convert encode norm) s

/-- The chunk sequence one document contributes: its text is split into
lines and every non-blank line is chunked. -/
def docChunks (tokenize : String → List String)
    (convert : List String → String) (text : String) : List String :=
  processChunks tokenize convert (pySplitLines text)

/-- The chunk-list extension performed for one document on an existing
index: the new chunks are filtered against the chunk list as it stood
when the document started being processed, and the survivors are all
appended. -/
def extendDedup (acc newChunks : List String) : List String :=
  acc ++ newChunks.filter (fun c => c ∉ acc)

/-- The invariant of claim C4: when an index exists the chunk list and the
index have the same number of entries; `_load_index_from_db` yields an
empty chunk list whenever it yields no index. -/
def engineInv (s : Engine) : Prop :=
  match s.index with
  | none => s.chunks_list = []
  | some idx => s.chunks_list.length = idx.length

/-! ### `search` -/

/-- `-FLT_MAX`, the padding score FAISS leaves in the distance array for
sentinel entries (returned when `top_k` exceeds the index population). -/
def sentinelScore : ℚ := -340282346638528859811704183484516925440

/-- Python list indexing semantics: a negative index counts from the end. -/
def pyGetChunk (chunks : List String) (i : ℤ) : Option String :=
  let j : ℤ := if i < 0 then i + chunks.length else i
  if 0 ≤ j then chunks.get? j.toNat else none

/-- The filter of `FaissSearchEngine.search` (lines 200-203): a pair
`(idx, sim)` from the FAISS result arrays is kept when
`idx < len(self.chunks_list)` and `sim >= min_similarity`.  Note that the
code does not require `0 ≤ idx`. -/
def searchKept (chunks : List String) (pairs : List (ℤ × ℚ))
    (min_similarity : ℚ) : List (ℤ × ℚ) :=
  pairs.filter (fun p => p.1 < (chunks.length : ℤ) ∧ min_similarity ≤ p.2)

/-- The texts `search` returns: `self.chunks_list[idx]` for every kept
pair, with Python indexing.  (FAISS ids are always ≥ -1, and the chunk
list is non-empty on this path, so the access never raises; an
out-of-range access would raise and is dropped here.) -/
def searchResults (chunks : List String) (pairs : List (ℤ × ℚ))
    (min_similarity : ℚ) : List String :=
  (searchKept chunks pairs min_similarity).filterMap
    (fun p => pyGetChunk chunks p.1)

/-- The query embedding of `search`: `np.array([self.model.encode(query)])`
divided by its (Frobenius = vector) norm. -/
def searchQueryVector (encode : String → List ℚ) (norm : List ℚ → ℚ)
    (q : String) : List ℚ :=
  (encode q).map (fun x => x / norm (encode q))

/-! ### Persistence (`db/db_manager.py`) -/

/-- Rows of the `pdf_files` table: `(filename, content, last_modified)`;
`filename` is UNIQUE in the schema. -/
abbrev PdfDb := List (String × String × ℚ)

/-- `SELECT content, last_modified FROM pdf_files WHERE filename = ?`. -/
def pdfLookup (db : PdfDb) (filename : String) : Option (String × ℚ) :=
  (db.find? (fun r => r.1 = filename)).map (fun r => r.2)

/-- `INSERT OR REPLACE INTO pdf_files ...`: the conflicting row (UNIQUE
filename) is deleted and the new row inserted. -/
def pdfReplace (db : PdfDb) (filename content : String)
    (last_modified : ℚ) : PdfDb :=
  db.filter (fun r => r.1 ≠ filename) ++ [(filename, content, last_modified)]

/-- `DBManager.save_pdf_content`: no-op when a row exists and
`old_modified >= last_modified`, or when a row exists and the content is
unchanged; otherwise insert-or-replace. -/
def savePdfContent (db : PdfDb) (filename content : String)
    (last_modified : ℚ) : PdfDb :=
  match pdfLookup db filename with
  | some r =>
    if last_modified ≤ r.2 then db
    else if r.1 = content then db
    else pdfReplace db filename content last_modified
  | none => pdfReplace db filename content last_modified

/-- `DBManager.get_tracked_pdfs`: filename → last_modified pairs. -/
def getTrackedPdfs (db : PdfDb) : List (String × ℚ) :=
  db.map (fun r => (r.1, r.2.2))

/-- Dictionary lookup in the `tracked_pdfs` mapping. -/
def trackedLookup (tracked : List (String × ℚ)) (f : String) : Option ℚ :=
  (tracked.find? (fun r => r.1 = f)).map (fun r => r.2)

/-- The test of `FaissSearchEngine.load_data` (line 81):
`filename not in tracked_pdfs or tracked_pdfs[filename] < last_modified`. -/
def qualifies (tracked : List (String × ℚ)) (f : String) (mtime : ℚ) : Bool :=
  match trackedLookup tracked f with
  | none => true
  | some ts => decide (ts < mtime)

/-- One iteration of the `for pdf_path, pdf_text in pdf_texts.items()` loop
of `load_data`: a qualifying document is appended to `updated_files` and
pushed through `save_pdf_content`; any other document is skipped. -/
def loadStep (tracked : List (String × ℚ))
    (acc : List (String × String) × PdfDb) (doc : String × String × ℚ) :
    List (String × String) × PdfDb :=
  if qualifies tracked doc.1 doc.2.2 then
    (acc.1 ++ [(doc.1, doc.2.1)],
     savePdfContent acc.2 doc.1 doc.2.1 doc.2.2)
  else acc

/-- The database component of the `load_data` loop in isolation. -/
def dbStep (tracked : List (String × ℚ)) (db : PdfDb)
    (doc : String × String × ℚ) : PdfDb :=
  if qualifies tracked doc.1 doc.2.2 then
    savePdfContent db doc.1 doc.2.1 doc.2.2
  else db

/-- `FaissSearchEngine.load_data`, for an existing folder whose scan yields
`listing` (triples `(basename, text, mtime)` from `PDFReader` and
`os.path.getmtime`): `tracked_pdfs` is read once up front, every
qualifying document is added to the returned mapping and pushed through
`save_pdf_content`.  Returns the mapping and the resulting `pdf_files`
table. -/
def loadData (db : PdfDb) (listing : List (String × String × ℚ)) :
    List (String × String) × PdfDb :=
  listing.foldl (loadStep (getTrackedPdfs db)) ([], db)

/-! ### `DBManager` and its hardcoded database file -/

/-- Content of one SQLite database file: the `faiss_index` rows (in
insertion order; `index_data` may be NULL) and the `pdf_files` rows. -/
structure DBFile where
  faiss_rows : List (Option (List (List ℚ)) × List String)
  pdf_rows : PdfDb

/-- A file system mapping file names to database contents. -/
abbrev FileSys := String → DBFile

/-- `DBManager.__init__` stores `db_path`; no operation reads it back. -/
structure DBManager where
  db_path : String

/-- Point update of a file system. -/
def fsUpdate (fs : FileSys) (name : String) (f : DBFile) : FileSys :=
  fun n => if n = name then f else fs n

/-- `DBManager.load_index`: reads the row with the highest id (the last
inserted row) of `faiss_index` in the hardcoded file `database.db`; a
missing row or NULL `index_data` yields `(None, [])`. -/
def dbLoadIndex (m : DBManager) (fs : FileSys) :
    Option (List (List ℚ)) × List String :=
  match (fs "database.db").faiss_rows.getLast? with
  | some row =>
    match row.1 with
    | some idx => (some idx, row.2)
    | none => (none, [])
  | none => (none, [])

/-- `DBManager.save_index`: no-op when the index is `None`; otherwise
deletes all `faiss_index` rows of `database.db` and inserts one row. -/
def dbSaveIndex (m : DBManager) (fs : FileSys)
    (index : Option (List (List ℚ))) (chunks : List String) : FileSys :=
  match index with
  | none => fs
  | some idx =>
    fsUpdate fs "database.db"
      { fs "database.db" with faiss_rows := [(some idx, chunks)] }

/-- `DBManager.get_tracked_pdfs`, reading `database.db`. -/
def dbGetTracked (m : DBManager) (fs : FileSys) : List (String × ℚ) :=
  getTrackedPdfs (fs "database.db").pdf_rows

/-- `DBManager.save_pdf_content`, writing `database.db`. -/
def dbSavePdfContent (m : DBManager) (fs : FileSys) (filename content : String)
    (last_modified : ℚ) : FileSys :=
  fsUpdate fs "database.db"
    { fs "database.db" with
      pdf_rows := savePdfContent (fs "database.db").pdf_rows
        filename content last_modified }

/-! ### Concrete external collaborators used in witnesses and
counterexamples -/

/-- A tokenizer that yields one token per text. -/
def tok0 (s : String) : List String := [s]

/-- Token-to-string conversion joining with spaces. -/
def conv0 (ts : List String) : String :=
  match ts with
  | [] => ""
  | t :: rest => rest.foldl (fun a b => a ++ " " ++ b) t

/-- An embedding provider returning the unit vector `[1]`. -/
def enc1 (s : String) : List ℚ := [1]

/-- An embedding provider returning the non-unit vector `[3, 4]`. -/
def enc34 (s : String) : List ℚ := [3, 4]

/-- A norm routine that is trivially 1 (only used where the norm value is
irrelevant or where the input is a unit vector). -/
def norm1 (v : List ℚ) : ℚ := 1

/-- A norm routine correct on `[3, 4]` (and on `[1]`). -/
def norm5 (v : List ℚ) : ℚ := if v = [3, 4] then 5 else 1

/-- A tokenizer with a fixed five-token output. -/
def tok5 (s : String) : List String := ["a", "b", "c", "d", "e"]

/-! ### Helper lemmas -/

theorem sumSq_cons (a : ℚ) (v : List ℚ) : sumSq (a :: v) = a ^ 2 + sumSq v := by
  simp [sumSq]

theorem sumSq_map_div (v : List ℚ) (c : ℚ) :
    sumSq (v.map (fun x => x / c)) = sumSq v / c ^ 2 := by
  induction v with
  | nil => simp [sumSq]
  | cons a v ih =>
    rw [List.map_cons, sumSq_cons, sumSq_cons, ih, div_pow, add_div]

theorem sumSq_map_div_eq_one (v : List ℚ) (c : ℚ) (h : c ^ 2 = sumSq v)
    (hc : c ≠ 0) : sumSq (v.map (fun x => x / c)) = 1 := by
  rw [sumSq_map_div, ← h, div_self (pow_ne_zero 2 hc)]

theorem filterMap_eq_map_of_some {α β : Type} (l : List α) (F : α → Option β)
    (G : α → β) (h : ∀ a ∈ l, F a = some (G a)) : l.filterMap F = l.map G := by
  induction l with
  | nil => rfl
  | cons a l ih =>
    rw [List.filterMap_cons, h a (List.mem_cons_self a l), List.map_cons,
      ih (fun b hb => h b (List.mem_cons_of_mem a hb))]

theorem pdfLookup_pdfReplace_self (db : PdfDb) (f c : String) (t : ℚ) :
    pdfLookup (pdfReplace db f c t) f = some (c, t) := by
  unfold pdfLookup pdfReplace
  rw [List.find?_append]
  have h1 : (db.filter (fun r => decide (r.1 ≠ f))).find?
      (fun r => decide (r.1 = f)) = none := by
    rw [List.find?_eq_none]
    intro r hr
    have h2 := (List.mem_filter.1 hr).2
    simp at h2 ⊢
    exact h2
  rw [h1]
  simp [List.find?]

/-! ### Claim C10 -/

/-- C10: every `DBManager` operation reads and writes the hardcoded file
`database.db`, so its observable behavior is independent of the `db_path`
argument stored at construction: two managers built with different paths
see and mutate the same state. -/
theorem db_manager_path_independent (p₁ p₂ : String) (fs : FileSys)
    (index : Option (List (List ℚ))) (chunks : List String)
    (filename content : String) (last_modified : ℚ) :
    dbLoadIndex ⟨p₁⟩ fs = dbLoadIndex ⟨p₂⟩ fs ∧
    dbSaveIndex ⟨p₁⟩ fs index chunks = dbSaveIndex ⟨p₂⟩ fs index chunks ∧
    dbGetTracked ⟨p₁⟩ fs = dbGetTracked ⟨p₂⟩ fs ∧
    dbSavePdfContent ⟨p₁⟩ fs filename content last_modified =
      dbSavePdfContent ⟨p₂⟩ fs filename content last_modified :=
  ⟨rfl, rfl, rfl, rfl⟩

/-! ### Claim C5 -/

/-- C5: contrary to the no-crash policy, `update_index` on an engine with
no index, given a mapping whose only document consists of blank lines,
raises (`numpy.AxisError` from `np.linalg.norm(..., axis=1)` on the empty
`(0,)`-shaped array in `_initialize_index`) instead of returning with the
state unchanged. -/
theorem update_blank_lines_raises :
    updateIndex tok0 conv0 enc1 norm1 ⟨none, []⟩ [("doc1", " \n\n\t")] =
      none := by decide

/-! ### Claim C8 -/

/-- C8 counterexample: `save_pdf_content` leaves the record unchanged in
two situations the claim says must replace it: a stale timestamp with
changed content, and a strictly newer timestamp with unchanged content
(so the claimed iff fails in both directions). -/
theorem save_pdf_noop_counterexample :
    (savePdfContent [("f", "old", (5 : ℚ))] "f" "new" 3 = [("f", "old", 5)] ∧
      "old" ≠ "new") ∧
    (savePdfContent [("g", "c", (1 : ℚ))] "g" "c" 7 = [("g", "c", 1)] ∧
      (1 : ℚ) < 7) :=
  ⟨⟨by decide, by decide⟩, ⟨by decide, by decide⟩⟩

/-- C8 amended: for a tracked filename with stored record `(c₀, t₀)`,
`save_pdf_content` leaves the table unchanged iff the new timestamp is
not strictly greater than the stored one OR the content is unchanged;
only when the timestamp strictly increases and the content differs is the
row replaced. -/
theorem save_pdf_noop_iff (db : PdfDb) (f c : String) (t : ℚ)
    (c₀ : String) (t₀ : ℚ) (h : pdfLookup db f = some (c₀, t₀)) :
    (savePdfContent db f c t = db ↔ (t ≤ t₀ ∨ c₀ = c)) ∧
    (t₀ < t → c₀ ≠ c → savePdfContent db f c t = pdfReplace db f c t) := by
  have hbody : savePdfContent db f c t =
      if t ≤ t₀ then db else if c₀ = c then db
      else pdfReplace db f c t := by
    unfold savePdfContent
    rw [h]
  constructor
  · constructor
    · intro heq
      by_cases h1 : t ≤ t₀
      · exact Or.inl h1
      by_cases h2 : c₀ = c
      · exact Or.inr h2
      exfalso
      rw [hbody, if_neg h1, if_neg h2] at heq
      have h3 := pdfLookup_pdfReplace_self db f c t
      rw [heq, h] at h3
      have h4 : t₀ = t := congrArg (fun r => r.2) (Option.some.inj h3)
      exact h1 (le_of_eq h4.symm)
    · intro hor
      rcases hor with h1 | h1
      · rw [hbody, if_pos h1]
      · rw [hbody]
        by_cases h2 : t ≤ t₀
        · rw [if_pos h2]
        · rw [if_neg h2, if_pos h1]
  · intro h1 h2
    rw [hbody, if_neg (not_le.2 h1), if_neg h2]

/-- C8 witness: the no-op iff evaluated on a concrete stored record. -/
theorem save_pdf_noop_iff_witness :
    savePdfContent [("f", "old", (5 : ℚ))] "f" "new" 3 = [("f", "old", 5)] ↔
      ((3 : ℚ) ≤ 5 ∨ "old" = "new") :=
  (save_pdf_noop_iff [("f", "old", (5 : ℚ))] "f" "new" 3 "old" 5 (by decide)).1

/-! ### Claim C1 -/

/-- C1 counterexample: with a chunk list of length 2, a FAISS result
containing the sentinel row `(-1, -FLT_MAX)` (as returned when `top_k`
exceeds the index population) and `min_similarity = -FLT_MAX`, the filter
keeps the sentinel pair — its row id `-1` is not a valid position — and
Python negative indexing returns the last chunk for it. -/
theorem search_includes_sentinel_row :
    ((-1 : ℤ), sentinelScore) ∈
      searchKept ["a", "b"] [((0 : ℤ), 1), ((-1 : ℤ), sentinelScore)]
        sentinelScore ∧
    ¬ (0 ≤ (-1 : ℤ)) ∧
    searchResults ["a", "b"] [((0 : ℤ), 1), ((-1 : ℤ), sentinelScore)]
      sentinelScore = ["a", "b"] :=
  ⟨by decide, by decide, by decide⟩

/-- C1 amended: when every FAISS result id is non-negative or the sentinel
`-1` carrying the `-FLT_MAX` padding score, and `min_similarity` exceeds
that padding score, every kept result has a valid row id strictly below
the chunk-list length and a score `≥ min_similarity`; the kept pairs
preserve the (descending) input score order, and the returned texts are
exactly the chunks at those row ids, in that order. -/
theorem search_filter_spec (chunks : List String) (pairs : List (ℤ × ℚ))
    (min_similarity : ℚ)
    (hids : ∀ p ∈ pairs, 0 ≤ p.1 ∨ (p.1 = -1 ∧ p.2 = sentinelScore))
    (hmin : sentinelScore < min_similarity)
    (hsorted : pairs.Pairwise (fun a b => b.2 ≤ a.2)) :
    (∀ p ∈ searchKept chunks pairs min_similarity,
        0 ≤ p.1 ∧ p.1 < (chunks.length : ℤ) ∧ min_similarity ≤ p.2) ∧
    (searchKept chunks pairs min_similarity).Pairwise (fun a b => b.2 ≤ a.2) ∧
    searchResults chunks pairs min_similarity =
      (searchKept chunks pairs min_similarity).map
        (fun p => chunks.getD p.1.toNat "") := by
  have hkept : ∀ p ∈ searchKept chunks pairs min_similarity,
      0 ≤ p.1 ∧ p.1 < (chunks.length : ℤ) ∧ min_similarity ≤ p.2 := by
    intro p hp
    have hmem := List.mem_filter.1 hp
    have hpred := hmem.2
    simp only [decide_eq_true_eq] at hpred
    rcases hids p hmem.1 with h0 | ⟨hneg, hsent⟩
    · exact ⟨h0, hpred.1, hpred.2⟩
    · exact absurd (hsent ▸ hpred.2) (not_le.2 hmin)
  refine ⟨hkept, hsorted.sublist (List.filter_sublist pairs), ?_⟩
  apply filterMap_eq_map_of_some
  intro p hp
  obtain ⟨h0, hlt, _⟩ := hkept p hp
  have hnat : p.1.toNat < chunks.length := by omega
  unfold pyGetChunk
  rw [if_neg (not_lt.2 h0), if_pos h0, List.get?_eq_get hnat,
    List.getD_eq_getElem chunks "" hnat]
  rfl

/-- C1 witness: the amended filter property on a concrete sorted FAISS
result with one sentinel row and `min_similarity = 1`. -/
theorem search_filter_spec_witness :
    (searchKept ["a", "b"] [((0 : ℤ), 2), ((1 : ℤ), 1),
      ((-1 : ℤ), sentinelScore)] 1).Pairwise (fun a b => b.2 ≤ a.2) :=
  (search_filter_spec ["a", "b"]
    [((0 : ℤ), 2), ((1 : ℤ), 1), ((-1 : ℤ), sentinelScore)] 1
    (by decide) (by decide) (by decide)).2.1

/-! ### Claim C2 -/

/-- C2 counterexample: on an engine whose index already exists,
`update_index` inserts the embedding-provider output unchanged — here the
non-unit vector `[3, 4]` — with no L2 normalization. -/
theorem update_existing_inserts_raw_vector :
    updateIndex tok0 conv0 enc34 norm1 ⟨some [[0, 1]], ["old"]⟩ [("f", "x")] =
      some ⟨some [[0, 1], [3, 4]], ["old", "x"]⟩ ∧
    sumSq [(3 : ℚ), 4] ≠ 1 :=
  ⟨by decide, by norm_num [sumSq]⟩

/-- C2 amended: the explicit normalizations the code does perform are
effective — when `norm` returns the true L2 norm of its (nonzero)
argument, every vector stored by the index-creating `_initialize_index`
and the query vector embedded by `search` are L2-unit; vectors added on
the existing-index path are inserted raw (see the counterexample). -/
theorem normalization_in_init_and_query (norm : List ℚ → ℚ)
    (vs : List (List ℚ)) (idx : List (List ℚ))
    (encode : String → List ℚ) (q : String)
    (hn : ∀ v ∈ vs, (norm v) ^ 2 = sumSq v ∧ norm v ≠ 0)
    (hq : (norm (encode q)) ^ 2 = sumSq (encode q) ∧ norm (encode q) ≠ 0)
    (hinit : initializeIndex norm vs = some idx) :
    (∀ w ∈ idx, sumSq w = 1) ∧ sumSq (searchQueryVector encode norm q) = 1 := by
  constructor
  · intro w hw
    cases vs with
    | nil => exact absurd hinit (by simp [initializeIndex])
    | cons v₀ vtl =>
      have hidx : (v₀ :: vtl).map (fun v => v.map (fun x => x / norm v)) =
          idx := by
        have := hinit
        unfold initializeIndex at this
        exact Option.some.inj this
      rw [← hidx] at hw
      obtain ⟨v, hv, rfl⟩ := List.mem_map.1 hw
      exact sumSq_map_div_eq_one v (norm v) (hn v hv).1 (hn v hv).2
  · exact sumSq_map_div_eq_one (encode q) (norm (encode q)) hq.1 hq.2

/-- C2 witness: the amended normalization property at the concrete
provider `enc34` and a norm routine correct on `[3, 4]`. -/
theorem normalization_in_init_and_query_witness :
    sumSq [(3 : ℚ)/5, 4/5] = 1 ∧
    sumSq (searchQueryVector enc34 norm5 "q") = 1 :=
  ⟨(normalization_in_init_and_query norm5 [[3, 4]] [[3/5, 4/5]] enc34 "q"
      (by norm_num [norm5, sumSq])
      (by norm_num [enc34, norm5, sumSq])
      (by norm_num [initializeIndex, norm5])).1
    [(3 : ℚ)/5, 4/5] (List.mem_singleton_self _),
  (normalization_in_init_and_query norm5 [[3, 4]] [[3/5, 4/5]] enc34 "q"
      (by norm_num [norm5, sumSq])
      (by norm_num [enc34, norm5, sumSq])
      (by norm_num [initializeIndex, norm5])).2⟩

/-! ### Claim C3 -/

/-- C3 counterexample: a document whose two lines chunk to the same text
`"x"`, applied to an engine with an existing index: both copies pass the
membership check (made against the chunk list as it stood before the
document, which does not contain `"x"`), so the newly introduced text
ends up twice in the chunk list. -/
theorem dedup_misses_within_document_duplicates :
    updateIndex tok0 conv0 enc1 norm1 ⟨some [[1]], ["y"]⟩ [("f", "x\nx")] =
      some ⟨some [[1], [1], [1]], ["y", "x", "x"]⟩ ∧
    "x" ∉ ["y"] ∧
    List.count "x" ["y", "x", "x"] = 2 :=
  ⟨by decide, by decide, by decide⟩

theorem foldlM_cons_eq {α β : Type} (f : α → β → Option α) (a : α) (x : β)
    (l : List β) :
    (x :: l).foldlM f a = f a x >>= fun a₂ => l.foldlM f a₂ := rfl

theorem updateIndex_eq_foldlM (tokenize : String → List String)
    (convert : List String → String) (encode : String → List ℚ)
    (norm : List ℚ → ℚ) (s : Engine) (m : List (String × String)) :
    updateIndex tokenize convert encode norm s m =
      m.foldlM (updateStep tokenize convert encode norm) s := by
  cases m <;> rfl

theorem updateStep_existing (tokenize : String → List String)
    (convert : List String → String) (encode : String → List ℚ)
    (norm : List ℚ → ℚ) (idx : List (List ℚ)) (chunks : List String)
    (d : String × String) :
    updateStep tokenize convert encode norm ⟨some idx, chunks⟩ d =
      some ⟨some (idx ++
          (((docChunks tokenize convert d.2).zip
              ((docChunks tokenize convert d.2).map encode)).filter
            (fun p => p.1 ∉ chunks)).map Prod.snd),
        extendDedup chunks (docChunks tokenize convert d.2)⟩ := rfl

theorem updateStep_none (tokenize : String → List String)
    (convert : List String → String) (encode : String → List ℚ)
    (norm : List ℚ → ℚ) (chunks : List String) (d : String × String) :
    updateStep tokenize convert encode norm ⟨none, chunks⟩ d =
      match initializeIndex norm ((docChunks tokenize convert d.2).map encode) with
      | none => none
      | some idx => some ⟨some idx, docChunks tokenize convert d.2⟩ := rfl

theorem filter_zip_mem (l : List String) (g : String → List ℚ)
    (chunks : List String) :
    ((l.zip (l.map g)).filter (fun p => p.1 ∉ chunks)).map Prod.snd =
      (l.filter (fun c => c ∉ chunks)).map g := by
  induction l with
  | nil => rfl
  | cons a l ih =>
    show (((a, g a) :: l.zip (l.map g)).filter
        (fun p => p.1 ∉ chunks)).map Prod.snd =
      ((a :: l).filter (fun c => c ∉ chunks)).map g
    rw [List.filter_cons, List.filter_cons]
    by_cases h : a ∈ chunks
    · rw [if_neg (by simp [h]), if_neg (by simp [h])]
      exact ih
    · rw [if_pos (by simp [h]), if_pos (by simp [h]), List.map_cons,
        List.map_cons, ih]

/-! ### Claim C3 (amended theorem) -/

/-- C3 amended: on an existing index, each document's chunks are filtered
against the chunk list as it stood when that document started being
processed (exact string equality) and the survivors are appended — so a
text already present is never re-added, but duplicates inside one
document's fresh chunk sequence are all appended: a text `ck` absent from
the pre-document list ends up with exactly its multiplicity in the fresh
chunk sequence. -/
theorem dedup_against_pre_document_chunks (tokenize : String → List String)
    (convert : List String → String) (encode : String → List ℚ)
    (norm : List ℚ → ℚ) (idx0 : List (List ℚ)) (chunks0 : List String)
    (m : List (String × String)) :
    (∃ idx1, updateIndex tokenize convert encode norm ⟨some idx0, chunks0⟩ m =
      some ⟨some idx1,
        m.foldl (fun acc d => extendDedup acc (docChunks tokenize convert d.2))
          chunks0⟩) ∧
    (∀ acc nc : List String, ∀ ck : String,
      List.count ck (extendDedup acc nc) =
        List.count ck acc + if ck ∈ acc then 0 else List.count ck nc) := by
  constructor
  · rw [updateIndex_eq_foldlM]
    induction m generalizing idx0 chunks0 with
    | nil => exact ⟨idx0, rfl⟩
    | cons d rest ih =>
      obtain ⟨idx1, h1⟩ := ih
        (idx0 ++ (((docChunks tokenize convert d.2).zip
            ((docChunks tokenize convert d.2).map encode)).filter
          (fun p => p.1 ∉ chunks0)).map Prod.snd)
        (extendDedup chunks0 (docChunks tokenize convert d.2))
      refine ⟨idx1, ?_⟩
      rw [List.foldl_cons]
      exact h1
  · intro acc nc ck
    unfold extendDedup
    rw [List.count_append]
    by_cases h : ck ∈ acc
    · rw [if_pos h]
      have hnot : ck ∉ nc.filter (fun c => c ∉ acc) := by
        intro hmem
        have h2 := (List.mem_filter.1 hmem).2
        simp only [decide_not, Bool.not_eq_true', decide_eq_false_iff_not] at h2
        exact h2 h
      rw [List.count_eq_zero.2 hnot]
    · rw [if_neg h, List.count_filter (by simpa using h)]

/-! ### Claim C4 -/

theorem updateStep_inv (tokenize : String → List String)
    (convert : List String → String) (encode : String → List ℚ)
    (norm : List ℚ → ℚ) (s : Engine) (d : String × String) (s₁ : Engine)
    (hinv : engineInv s)
    (h : updateStep tokenize convert encode norm s d = some s₁) :
    engineInv s₁ := by
  cases s with
  | mk sidx chunks =>
    cases sidx with
    | none =>
      rw [updateStep_none] at h
      cases hc : docChunks tokenize convert d.2 with
      | nil =>
        rw [hc] at h
        simp [initializeIndex] at h
      | cons c cs =>
        rw [hc] at h
        simp only [List.map_cons, initializeIndex] at h
        have h2 := Option.some.inj h
        rw [← h2]
        simp [engineInv]
    | some idx =>
      rw [updateStep_existing] at h
      rw [← Option.some.inj h]
      have hinv2 : chunks.length = idx.length := hinv
      have hlen := congrArg List.length
        (filter_zip_mem (docChunks tokenize convert d.2) encode chunks)
      rw [List.length_map, List.length_map] at hlen
      show (extendDedup chunks (docChunks tokenize convert d.2)).length = _
      unfold extendDedup
      rw [List.length_append, List.length_append, List.length_map, hinv2, hlen]

/-- C4: `engineInv` — the chunk list and the vector index have equally
many entries — holds after every `update_index` call that returns
normally, whether it bootstraps the index or extends an existing one,
given that it held before the call (`_load_index_from_db` establishes it
on startup). -/
theorem update_preserves_length_invariant (tokenize : String → List String)
    (convert : List String → String) (encode : String → List ℚ)
    (norm : List ℚ → ℚ) (s : Engine) (m : List (String × String))
    (s' : Engine) (hinv : engineInv s)
    (h : updateIndex tokenize convert encode norm s m = some s') :
    engineInv s' := by
  rw [updateIndex_eq_foldlM] at h
  revert s
  induction m with
  | nil =>
    intro s hinv h
    exact (Option.some.inj h) ▸ hinv
  | cons d rest ih =>
    intro s hinv h
    rw [foldlM_cons_eq] at h
    cases hstep : updateStep tokenize convert encode norm s d with
    | none =>
      rw [hstep] at h
      simp at h
    | some s₁ =>
      rw [hstep] at h
      exact ih s₁ (updateStep_inv tokenize convert encode norm s d s₁ hinv hstep) h

/-- C4 witness: the invariant after a concrete bootstrap update. -/
theorem update_preserves_length_invariant_witness :
    engineInv ⟨some [[1]], ["x"]⟩ :=
  update_preserves_length_invariant tok0 conv0 enc1 norm1 ⟨none, []⟩
    [("f", "x")] ⟨some [[1]], ["x"]⟩ rfl
    (by simp [updateIndex, updateStep, processTexts, processChunks,
      initializeIndex, pySplitLines, splitNlAux, isBlank, isPySpace,
      slidingWindowTokenization, tok0, conv0, enc1, norm1, windowSlice])

/-! ### Claim C6 -/

/-- C6: for positive stride — the formula `floor((n - w)/stride) + 1`
presupposes a nonzero stride, and Python `range` raises on step 0 — the
chunker returns the single full detokenized text when `n < window_size`,
and otherwise exactly `(n - window_size) / stride + 1` chunks, the `i`-th
being the detokenization of `tokens[i*stride : i*stride + window_size]`,
a slice of exactly `window_size` tokens (trailing tokens beyond the last
full window are dropped). -/
theorem sliding_window_spec (tokenize : String → List String)
    (convert : List String → String) (text : String)
    (window_size stride : ℕ) (hs : 1 ≤ stride) :
    ((tokenize text).length < window_size →
      slidingWindowTokenization tokenize convert text window_size stride =
        [convert (tokenize text)]) ∧
    (window_size ≤ (tokenize text).length →
      (slidingWindowTokenization tokenize convert text
          window_size stride).length =
        ((tokenize text).length - window_size) / stride + 1 ∧
      ∀ i, i < ((tokenize text).length - window_size) / stride + 1 →
        (slidingWindowTokenization tokenize convert text
            window_size stride).getD i "" =
          convert (windowSlice (tokenize text) window_size (i * stride)) ∧
        (windowSlice (tokenize text) window_size (i * stride)).length =
          window_size) := by
  constructor
  · intro h
    unfold slidingWindowTokenization
    rw [if_pos h]
  · intro h
    have hnl : ¬ (tokenize text).length < window_size := not_lt.2 h
    refine ⟨?_, ?_⟩
    · unfold slidingWindowTokenization
      rw [if_neg hnl, List.length_map, List.length_range]
    · intro i hi
      constructor
      · unfold slidingWindowTokenization
        rw [if_neg hnl]
        have hi2 : i < ((List.range
            (((tokenize text).length - window_size) / stride + 1)).map
            (fun i => convert (windowSlice (tokenize text) window_size
              (i * stride)))).length := by
          rw [List.length_map, List.length_range]
          exact hi
        rw [List.getD_eq_getElem _ "" hi2, List.getElem_map,
          List.getElem_range]
      · unfold windowSlice
        rw [List.length_take, List.length_drop]
        have h1 : i * stride ≤
            ((tokenize text).length - window_size) / stride * stride :=
          Nat.mul_le_mul_right stride (Nat.lt_succ_iff.1 hi)
        have h2 : ((tokenize text).length - window_size) / stride * stride ≤
            (tokenize text).length - window_size :=
          Nat.div_mul_le_self _ _
        omega

/-- C6 witness: the chunker on a five-token text with window 3, stride 2:
two chunks, each of three tokens. -/
theorem sliding_window_spec_witness :
    (slidingWindowTokenization tok5 conv0 "t" 3 2).length = (5 - 3) / 2 + 1 :=
  ((sliding_window_spec tok5 conv0 "t" 3 2 (by decide)).2 (by decide)).1

/-! ### Claim C7 -/

theorem updateFold_mono (tokenize : String → List String)
    (convert : List String → String) (encode : String → List ℚ)
    (norm : List ℚ → ℚ) (m : List (String × String)) :
    ∀ (idx : List (List ℚ)) (chunks : List String) (s₁ : Engine),
    m.foldlM (updateStep tokenize convert encode norm)
      ⟨some idx, chunks⟩ = some s₁ →
    (∃ i₁, s₁.index = some i₁) ∧
    (∀ x ∈ chunks, x ∈ s₁.chunks_list) ∧
    (∀ d ∈ m, ∀ ck ∈ docChunks tokenize convert d.2, ck ∈ s₁.chunks_list) := by
  induction m with
  | nil =>
    intro idx chunks s₁ h
    rw [← Option.some.inj h]
    exact ⟨⟨idx, rfl⟩, fun x hx => hx, by simp⟩
  | cons d rest ih =>
    intro idx chunks s₁ h
    have h2 : rest.foldlM (updateStep tokenize convert encode norm)
        ⟨some (idx ++ (((docChunks tokenize convert d.2).zip
            ((docChunks tokenize convert d.2).map encode)).filter
          (fun p => p.1 ∉ chunks)).map Prod.snd),
          extendDedup chunks (docChunks tokenize convert d.2)⟩ = some s₁ := h
    obtain ⟨hsome, hmono, hdocs⟩ := ih _ _ s₁ h2
    refine ⟨hsome, ?_, ?_⟩
    · intro x hx
      exact hmono x (List.mem_append_left _ hx)
    · intro d₂ hd₂ ck hck
      rcases List.mem_cons.1 hd₂ with rfl | hd₂r
      · by_cases hc : ck ∈ chunks
        · exact hmono ck (List.mem_append_left _ hc)
        · exact hmono ck (List.mem_append_right _
            (List.mem_filter.2 ⟨hck, by simpa using hc⟩))
      · exact hdocs d₂ hd₂r ck hck

theorem updateFold_fixed (tokenize : String → List String)
    (convert : List String → String) (encode : String → List ℚ)
    (norm : List ℚ → ℚ) (m : List (String × String)) :
    ∀ (idx : List (List ℚ)) (chunks : List String),
    (∀ d ∈ m, ∀ ck ∈ docChunks tokenize convert d.2, ck ∈ chunks) →
    m.foldlM (updateStep tokenize convert encode norm) ⟨some idx, chunks⟩ =
      some ⟨some idx, chunks⟩ := by
  induction m with
  | nil => intro idx chunks hall; rfl
  | cons d rest ih =>
    intro idx chunks hall
    have hfil : (docChunks tokenize convert d.2).filter
        (fun c => c ∉ chunks) = [] := by
      rw [List.filter_eq_nil_iff]
      intro ck hck
      simpa using hall d (List.mem_cons_self d rest) ck hck
    have hfil2 : ((docChunks tokenize convert d.2).zip
        ((docChunks tokenize convert d.2).map encode)).filter
        (fun p => p.1 ∉ chunks) = [] := by
      rw [List.filter_eq_nil_iff]
      intro p hp
      simpa using hall d (List.mem_cons_self d rest) p.1 (List.of_mem_zip hp).1
    rw [foldlM_cons_eq, updateStep_existing]
    simp only [extendDedup, hfil, hfil2, List.map_nil, List.append_nil]
    exact ih idx chunks (fun d₂ hd₂ => hall d₂ (List.mem_cons_of_mem d hd₂))

/-- C7: `update_index` is idempotent — if a call on any starting state
with any mapping returns normally with state `s₁`, then repeating the
same call from `s₁` succeeds and returns `s₁` unchanged: the second call
appends zero chunks and inserts zero vectors. -/
theorem update_index_idempotent (tokenize : String → List String)
    (convert : List String → String) (encode : String → List ℚ)
    (norm : List ℚ → ℚ) (s : Engine) (m : List (String × String))
    (s₁ : Engine)
    (h : updateIndex tokenize convert encode norm s m = some s₁) :
    updateIndex tokenize convert encode norm s₁ m = some s₁ := by
  rw [updateIndex_eq_foldlM] at h ⊢
  cases m with
  | nil => rfl
  | cons d rest =>
    obtain ⟨sidx, chunks⟩ := s
    cases sidx with
    | some idx =>
      obtain ⟨⟨i₁, hi₁⟩, hmono, hdocs⟩ :=
        updateFold_mono tokenize convert encode norm (d :: rest)
          idx chunks s₁ h
      obtain ⟨s₁idx, s₁chunks⟩ := s₁
      have hidx2 : s₁idx = some i₁ := hi₁
      subst hidx2
      exact updateFold_fixed tokenize convert encode norm (d :: rest)
        i₁ s₁chunks hdocs
    | none =>
      cases hdc : docChunks tokenize convert d.2 with
      | nil =>
        have hstep : updateStep tokenize convert encode norm
            ⟨none, chunks⟩ d = none := by
          rw [updateStep_none, hdc]
          rfl
        rw [foldlM_cons_eq, hstep] at h
        simp at h
      | cons c cs =>
        have hstep : updateStep tokenize convert encode norm
            ⟨none, chunks⟩ d =
            some ⟨some (((c :: cs).map encode).map
              (fun v => v.map (fun x => x / norm v))), c :: cs⟩ := by
          rw [updateStep_none, hdc]
          rfl
        rw [foldlM_cons_eq, hstep] at h
        have h2 : rest.foldlM (updateStep tokenize convert encode norm)
            ⟨some (((c :: cs).map encode).map
              (fun v => v.map (fun x => x / norm v))), c :: cs⟩ =
            some s₁ := h
        obtain ⟨⟨i₁, hi₁⟩, hmono, hdocs⟩ :=
          updateFold_mono tokenize convert encode norm rest _ (c :: cs) s₁ h2
        obtain ⟨s₁idx, s₁chunks⟩ := s₁
        have hidx2 : s₁idx = some i₁ := hi₁
        subst hidx2
        apply updateFold_fixed
        intro d₂ hd₂ ck hck
        rcases List.mem_cons.1 hd₂ with rfl | hd₂r
        · rw [hdc] at hck
          exact hmono ck hck
        · exact hdocs d₂ hd₂r ck hck

/-- C7 witness: updating a bootstrapped engine again with the same
mapping returns the state unchanged. -/
theorem update_index_idempotent_witness :
    updateIndex tok0 conv0 enc1 norm1 ⟨some [[1]], ["x"]⟩ [("f", "x")] =
      some ⟨some [[1]], ["x"]⟩ :=
  update_index_idempotent tok0 conv0 enc1 norm1 ⟨none, []⟩ [("f", "x")]
    ⟨some [[1]], ["x"]⟩
    (by simp [updateIndex, updateStep, processTexts, processChunks,
      initializeIndex, pySplitLines, splitNlAux, isBlank, isPySpace,
      slidingWindowTokenization, tok0, conv0, enc1, norm1, windowSlice])

/-! ### Claim C9 -/

/-- C9 counterexample: a tracked file whose modification time advanced
from 1 to 2 while its content stayed `"c"`.  The first `load_data` run
includes it (timestamp strictly exceeds the stored one) but
`save_pdf_content` no-ops because the content is unchanged, so the stored
record keeps timestamp 1 — and a second run over the unchanged folder
returns the same non-empty mapping instead of an empty one. -/
theorem touched_unchanged_file_reincluded :
    loadData [("f", "c", (1 : ℚ))] [("f", "c", 2)] =
      ([("f", "c")], [("f", "c", 1)]) ∧
    (loadData (loadData [("f", "c", (1 : ℚ))] [("f", "c", 2)]).2
      [("f", "c", 2)]).1 = [("f", "c")] :=
  ⟨by decide, by decide⟩

theorem trackedLookup_getTracked (db : PdfDb) (f : String) :
    trackedLookup (getTrackedPdfs db) f = (pdfLookup db f).map Prod.snd := by
  induction db with
  | nil => rfl
  | cons r db ih =>
    by_cases h : r.1 = f
    · simp [trackedLookup, getTrackedPdfs, pdfLookup, List.find?_cons, h]
    · show trackedLookup ((r.1, r.2.2) :: getTrackedPdfs db) f = _
      unfold trackedLookup pdfLookup
      rw [List.find?_cons_of_neg _ (by simpa using h),
        List.find?_cons_of_neg _ (by simpa using h)]
      exact ih

theorem find?_filter_keep (db : PdfDb) (f g : String) (hfg : g ≠ f) :
    (db.filter (fun r => r.1 ≠ g)).find? (fun r => r.1 = f) =
      db.find? (fun r => r.1 = f) := by
  induction db with
  | nil => rfl
  | cons r db ih =>
    by_cases h1 : r.1 = g
    · rw [List.filter_cons_of_neg (by simpa using h1),
        List.find?_cons_of_neg _ (by simp [h1, hfg]), ih]
    · rw [List.filter_cons_of_pos (by simpa using h1)]
      by_cases h2 : r.1 = f
      · rw [List.find?_cons_of_pos _ (by simpa using h2),
          List.find?_cons_of_pos _ (by simpa using h2)]
      · rw [List.find?_cons_of_neg _ (by simpa using h2),
          List.find?_cons_of_neg _ (by simpa using h2), ih]

theorem pdfLookup_pdfReplace_other (db : PdfDb) (f g c : String) (t : ℚ)
    (hfg : g ≠ f) :
    pdfLookup (pdfReplace db g c t) f = pdfLookup db f := by
  unfold pdfLookup pdfReplace
  rw [List.find?_append, find?_filter_keep db f g hfg]
  cases hdb : db.find? (fun r => decide (r.1 = f)) with
  | some r => rfl
  | none =>
    rw [List.find?_cons_of_neg _ (by simpa using hfg)]
    rfl

theorem pdfLookup_savePdf_other (db : PdfDb) (f g c : String) (t : ℚ)
    (hfg : g ≠ f) :
    pdfLookup (savePdfContent db g c t) f = pdfLookup db f := by
  unfold savePdfContent
  cases hg : pdfLookup db g with
  | none => exact pdfLookup_pdfReplace_other db f g c t hfg
  | some r =>
    show pdfLookup
      (if t ≤ r.2 then db else if r.1 = c then db
        else pdfReplace db g c t) f = pdfLookup db f
    by_cases h1 : t ≤ r.2
    · rw [if_pos h1]
    · rw [if_neg h1]
      by_cases h2 : r.1 = c
      · rw [if_pos h2]
      · rw [if_neg h2]
        exact pdfLookup_pdfReplace_other db f g c t hfg

theorem loadFold_fst (tracked : List (String × ℚ))
    (listing : List (String × String × ℚ)) :
    ∀ (u0 : List (String × String)) (db0 : PdfDb),
    (listing.foldl (loadStep tracked) (u0, db0)).1 =
      u0 ++ (listing.filter (fun d => qualifies tracked d.1 d.2.2)).map
        (fun d => (d.1, d.2.1)) := by
  induction listing with
  | nil =>
    intro u0 db0
    simp
  | cons d l ih =>
    intro u0 db0
    rw [List.foldl_cons, List.filter_cons]
    by_cases hq : qualifies tracked d.1 d.2.2 = true
    · have hstep : loadStep tracked (u0, db0) d =
          (u0 ++ [(d.1, d.2.1)], savePdfContent db0 d.1 d.2.1 d.2.2) := by
        unfold loadStep
        rw [if_pos hq]
      rw [if_pos hq, hstep, ih, List.map_cons, List.append_assoc]
      rfl
    · have hstep : loadStep tracked (u0, db0) d = (u0, db0) := by
        unfold loadStep
        rw [if_neg hq]
      rw [if_neg hq, hstep, ih]

theorem loadFold_snd (tracked : List (String × ℚ))
    (listing : List (String × String × ℚ)) :
    ∀ (u0 : List (String × String)) (db0 : PdfDb),
    (listing.foldl (loadStep tracked) (u0, db0)).2 =
      listing.foldl (dbStep tracked) db0 := by
  induction listing with
  | nil =>
    intro u0 db0
    rfl
  | cons d l ih =>
    intro u0 db0
    rw [List.foldl_cons, List.foldl_cons]
    by_cases hq : qualifies tracked d.1 d.2.2 = true
    · have hstep : loadStep tracked (u0, db0) d =
          (u0 ++ [(d.1, d.2.1)], savePdfContent db0 d.1 d.2.1 d.2.2) := by
        unfold loadStep
        rw [if_pos hq]
      have hstep2 : dbStep tracked db0 d =
          savePdfContent db0 d.1 d.2.1 d.2.2 := by
        unfold dbStep
        rw [if_pos hq]
      rw [hstep, hstep2, ih]
    · have hstep : loadStep tracked (u0, db0) d = (u0, db0) := by
        unfold loadStep
        rw [if_neg hq]
      have hstep2 : dbStep tracked db0 d = db0 := by
        unfold dbStep
        rw [if_neg hq]
      rw [hstep, hstep2, ih]

theorem dbFold_lookup_other (tracked : List (String × ℚ))
    (listing : List (String × String × ℚ)) (f : String) :
    ∀ (db0 : PdfDb), (∀ d ∈ listing, d.1 ≠ f) →
    pdfLookup (listing.foldl (dbStep tracked) db0) f = pdfLookup db0 f := by
  induction listing with
  | nil =>
    intro db0 hni
    rfl
  | cons d l ih =>
    intro db0 hni
    rw [List.foldl_cons,
      ih _ (fun e he => hni e (List.mem_cons_of_mem d he))]
    unfold dbStep
    by_cases hq : qualifies tracked d.1 d.2.2 = true
    · rw [if_pos hq]
      exact pdfLookup_savePdf_other db0 f d.1 d.2.1 d.2.2
        (hni d (List.mem_cons_self d l))
    · rw [if_neg hq]

/-- C9 amended: `load_data` includes a document exactly when it is new or
its modification time strictly exceeds the stored timestamp, calling
`save_pdf_content` for each included document — a call that replaces the
record only when the document is new or its content changed.  When the
listing has distinct filenames and every included document is new or has
changed content, the records are actually updated and a second run over
the unchanged folder returns an empty mapping; a document whose timestamp
advanced with unchanged content is re-included on every run (see the
counterexample). -/
theorem load_data_amended (db : PdfDb) (listing : List (String × String × ℚ))
    (hnodup : (listing.map (fun d => d.1)).Nodup)
    (hgood : ∀ d ∈ listing, qualifies (getTrackedPdfs db) d.1 d.2.2 = true →
      (pdfLookup db d.1).all (fun r => r.1 ≠ d.2.1) = true) :
    (loadData db listing).1 =
      (listing.filter (fun d => qualifies (getTrackedPdfs db) d.1 d.2.2)).map
        (fun d => (d.1, d.2.1)) ∧
    (loadData (loadData db listing).2 listing).1 = [] := by
  have hfst : ∀ (dbx : PdfDb),
      (loadData dbx listing).1 = (listing.filter
        (fun d => qualifies (getTrackedPdfs dbx) d.1 d.2.2)).map
        (fun d => (d.1, d.2.1)) := by
    intro dbx
    unfold loadData
    rw [loadFold_fst, List.nil_append]
  refine ⟨hfst db, ?_⟩
  rw [hfst]
  have hsnd : (loadData db listing).2 =
      listing.foldl (dbStep (getTrackedPdfs db)) db := by
    unfold loadData
    rw [loadFold_snd]
  suffices hfil : listing.filter (fun d =>
      qualifies (getTrackedPdfs ((loadData db listing).2)) d.1 d.2.2) = [] by
    rw [hfil]
    rfl
  rw [List.filter_eq_nil_iff]
  intro d hd
  obtain ⟨l₁, l₂, hsplit⟩ := List.append_of_mem hd
  subst hsplit
  rw [List.map_append, List.map_cons] at hnodup
  have hdisj := (List.nodup_append.1 hnodup).2.2
  have hn2 := (List.nodup_append.1 hnodup).2.1
  have h1 : ∀ e ∈ l₁, e.1 ≠ d.1 := by
    intro e he heq
    exact hdisj (heq ▸ List.mem_map_of_mem _ he) (List.mem_cons_self _ _)
  have h2 : ∀ e ∈ l₂, e.1 ≠ d.1 := by
    intro e he heq
    exact (List.nodup_cons.1 hn2).1 (heq ▸ List.mem_map_of_mem _ he)
  have hlook : pdfLookup ((loadData db (l₁ ++ d :: l₂)).2) d.1 =
      pdfLookup (dbStep (getTrackedPdfs db)
        (l₁.foldl (dbStep (getTrackedPdfs db)) db) d) d.1 := by
    rw [hsnd, List.foldl_append, List.foldl_cons]
    exact dbFold_lookup_other (getTrackedPdfs db) l₂ d.1 _ h2
  have hpre : pdfLookup (l₁.foldl (dbStep (getTrackedPdfs db)) db) d.1 =
      pdfLookup db d.1 :=
    dbFold_lookup_other (getTrackedPdfs db) l₁ d.1 db h1
  by_cases hq : qualifies (getTrackedPdfs db) d.1 d.2.2 = true
  · have hrep : pdfLookup (dbStep (getTrackedPdfs db)
        (l₁.foldl (dbStep (getTrackedPdfs db)) db) d) d.1 =
        some (d.2.1, d.2.2) := by
      have hstep2 : dbStep (getTrackedPdfs db)
          (l₁.foldl (dbStep (getTrackedPdfs db)) db) d =
          savePdfContent (l₁.foldl (dbStep (getTrackedPdfs db)) db)
            d.1 d.2.1 d.2.2 := by
        unfold dbStep
        rw [if_pos hq]
      rw [hstep2]
      unfold savePdfContent
      rw [hpre]
      cases hdb : pdfLookup db d.1 with
      | none => exact pdfLookup_pdfReplace_self _ d.1 d.2.1 d.2.2
      | some r =>
        have hq2 := hq
        unfold qualifies at hq2
        rw [trackedLookup_getTracked, hdb] at hq2
        have hts : r.2 < d.2.2 := by simpa using hq2
        have hcont := hgood d hd hq
        rw [hdb] at hcont
        have hne : r.1 ≠ d.2.1 := by simpa [Option.all] using hcont
        show pdfLookup (if d.2.2 ≤ r.2 then
            l₁.foldl (dbStep (getTrackedPdfs db)) db
          else if r.1 = d.2.1 then
            l₁.foldl (dbStep (getTrackedPdfs db)) db
          else pdfReplace (l₁.foldl (dbStep (getTrackedPdfs db)) db)
            d.1 d.2.1 d.2.2) d.1 = some (d.2.1, d.2.2)
        rw [if_neg (not_le.2 hts), if_neg hne]
        exact pdfLookup_pdfReplace_self _ d.1 d.2.1 d.2.2
    intro hq1
    unfold qualifies at hq1
    rw [trackedLookup_getTracked, hlook, hrep] at hq1
    simp at hq1
  · intro hq1
    apply hq
    have hstep2 : dbStep (getTrackedPdfs db)
        (l₁.foldl (dbStep (getTrackedPdfs db)) db) d =
        l₁.foldl (dbStep (getTrackedPdfs db)) db := by
      unfold dbStep
      rw [if_neg hq]
    unfold qualifies at hq1 ⊢
    rw [trackedLookup_getTracked, hlook, hstep2, hpre] at hq1
    rw [trackedLookup_getTracked]
    exact hq1

/-- C9 witness: a tracked file whose content changed and timestamp
advanced is included once, its record is replaced, and the second run
returns an empty mapping. -/
theorem load_data_amended_witness :
    (loadData [("g", "c", (1 : ℚ))] [("g", "d", 2)]).1 =
      (([("g", "d", (2 : ℚ))]).filter (fun d => qualifies
        (getTrackedPdfs [("g", "c", (1 : ℚ))]) d.1 d.2.2)).map
        (fun d => (d.1, d.2.1)) ∧
    (loadData (loadData [("g", "c", (1 : ℚ))] [("g", "d", 2)]).2
      [("g", "d", 2)]).1 = [] :=
  load_data_amended [("g", "c", (1 : ℚ))] [("g", "d", 2)]
    (by decide) (by decide)
